import Mathlib

/-!
Verification of the IPv4 subnet model of the `iptool` repository.

The definitions below are a shallow embedding of the Go sources
`ip/ipv4.go`, `ip/ip.go` and `utils/math.go`.  IPv4 addresses and masks
are modelled as natural numbers below `2^32` (Go `uint32` arithmetic is
made explicit with `% 2^32` where overflow can occur), strings as
`List Char`, and fallible functions return `Option`/`Except`.

Scope note: the Go code delegates textual parsing to `net.ParseIP` /
`net.ParseCIDR`.  Those accept IPv4 dotted-quad text (four dot-separated
decimal octets, each at most 255, no leading zeros) which is the grammar
modelled here; IPv6 textual forms, which the surrounding `iptool` code
never produces for its IPv4 module, are outside the embedding.
-/

namespace IPTool

/-- Decimal digit to character, as produced by Go's integer formatting. -/
def digitChar (d : Nat) : Char :=
  match d with
  | 0 => '0' | 1 => '1' | 2 => '2' | 3 => '3' | 4 => '4'
  | 5 => '5' | 6 => '6' | 7 => '7' | 8 => '8' | 9 => '9'
  | _ => '*'

/-- Numeric value of a decimal digit character. -/
def digitVal (c : Char) : Nat := c.toNat - 48

/-- Value of a string of decimal digits, accumulated left to right exactly
as Go's `dtoi` and `netip` field scanners do. -/
def decVal (cs : List Char) : Nat := cs.foldl (fun a c => a * 10 + digitVal c) 0

/-- Fuel-driven digit rendering; the fuel strictly exceeds the value, so it
never runs out (structural recursion keeps the definition kernel-reducible). -/
def natDecCharsAux : Nat → Nat → List Char
  | 0, _ => []
  | fuel + 1, n =>
    if n < 10 then [digitChar n]
    else natDecCharsAux fuel (n / 10) ++ [digitChar (n % 10)]

/-- Decimal rendering of a natural number (Go `strconv.Itoa` / `fmt` `%d`
for non-negative values): most significant digit first, no leading zeros. -/
def natDecChars (n : Nat) : List Char := natDecCharsAux (n + 1) n

/-- Embedding of `IntToIPv4` from `ip/ipv4.go` composed with `net.IP.String`:
the four bytes of the 32-bit value (Go `byte(ipInt >> k)` truncates, hence
the `% 256`) rendered in dotted-decimal notation. -/
def intToIPv4 (ipInt : Nat) : List Char :=
  natDecChars ((ipInt >>> 24) % 256) ++ '.' ::
  (natDecChars ((ipInt >>> 16) % 256) ++ '.' ::
  (natDecChars ((ipInt >>> 8) % 256) ++ '.' ::
  natDecChars (ipInt % 256)))

/-- Hexadecimal digit recognizer, the character class `[0-9a-fA-F]` of the
regular expression in `IsIPv4Hex`. -/
def isHexDigitC (c : Char) : Bool :=
  c.isDigit || ('a' ≤ c && c ≤ 'f') || ('A' ≤ c && c ≤ 'F')

/-- Numeric value of a hexadecimal digit character. -/
def hexVal (c : Char) : Nat :=
  if c.isDigit then c.toNat - 48
  else if 'a' ≤ c && c ≤ 'f' then c.toNat - 87
  else c.toNat - 55

/-- Embedding of ``regexp.MustCompile(`0x`).ReplaceAllString(s, "")`` used by
`IsIPv4Hex` and `ParseIPv4FromHex`: one left-to-right pass deleting each
non-overlapping occurrence of the two-character substring `0x` (the scan
resumes after a deleted occurrence, it does not rescan the replacement). -/
def remove0x : List Char → List Char
  | [] => []
  | [c] => [c]
  | c1 :: c2 :: rest =>
    if c1 = '0' ∧ c2 = 'x' then remove0x rest
    else c1 :: remove0x (c2 :: rest)

/-- Embedding of `IsIPv4Hex` from `ip/ipv4.go`: after deleting `0x`
occurrences, the remainder must match `^[0-9a-fA-F]{8}$`. -/
def IsIPv4Hex (hexIP : List Char) : Bool :=
  let t := remove0x hexIP
  t.length == 8 && t.all isHexDigitC

/-- Error values of the `ip` package, one constructor per distinct Go error:
`ErrInvalidNetmask`, `ErrInvalidHexAddress`, the ad-hoc
`"invalid length for hex IP address"` and `"invalid IP address"` errors of
`ParseIPv4FromHex`/`ParseIPv4`, and errors propagated from `net.ParseCIDR`. -/
inductive IPErr where
  | invalidNetmask
  | invalidHexAddress
  | invalidHexLength
  | invalidAddress
  | cidrParse
deriving DecidableEq

/-- Embedding of Go `strconv.ParseInt(s, 16, 16)` as used on the two-character
groups in `ParseIPv4FromHex`: an optional single sign character followed by a
non-empty run of hexadecimal digits, rejected outside the `int16` range
(the range check is unreachable for the at-most-two-character inputs the
caller passes, but is kept for fidelity). -/
def goParseIntHex16 (cs : List Char) : Option Int :=
  match cs with
  | [] => none
  | c :: rest =>
    let digits := if c = '-' ∨ c = '+' then rest else c :: rest
    if digits.isEmpty then none
    else if digits.all isHexDigitC then
      let v : Nat := digits.foldl (fun a d => a * 16 + hexVal d) 0
      if c = '-' then
        if v ≤ 32768 then some (-(v : Int)) else none
      else
        if v ≤ 32767 then some (v : Int) else none
    else none

/-- Go `byte(v)` conversion of an `int64`: the low 8 bits in two's
complement, i.e. the value modulo 256. -/
def byteOfInt (v : Int) : Nat := (v % 256).toNat

/-- Embedding of `ParseIPv4FromHex` from `ip/ipv4.go`: delete `0x`
occurrences, require exactly 8 remaining characters (otherwise the distinct
`"invalid length"` error), convert each 2-character group with
`strconv.ParseInt(_, 16, 16)` (failure yields `ErrInvalidHexAddress`),
truncate each group to a byte and render the 4 bytes in dotted decimal. -/
def ParseIPv4FromHex (hexIP : List Char) : Except IPErr (List Char) :=
  let h := remove0x hexIP
  if h.length ≠ 8 then .error .invalidHexLength
  else
    match goParseIntHex16 (h.take 2), goParseIntHex16 ((h.drop 2).take 2),
          goParseIntHex16 ((h.drop 4).take 2), goParseIntHex16 ((h.drop 6).take 2) with
    | some b0, some b1, some b2, some b3 =>
        .ok (intToIPv4 (((byteOfInt b0 * 256 + byteOfInt b1) * 256 + byteOfInt b2) * 256
              + byteOfInt b3))
    | _, _, _, _ => .error .invalidHexAddress

/-- Split a character list at a separator predicate, keeping empty fields
(shared backbone of the embeddings of `strings.FieldsFunc` and of the
field splitting inside the `net` package's IPv4 text parser). -/
def splitBySep (f : Char → Bool) : List Char → List (List Char)
  | [] => [[]]
  | c :: rest =>
    match splitBySep f rest with
    | [] => [[]]
    | g :: gs => if f c then [] :: g :: gs else (c :: g) :: gs

/-- One dotted-decimal octet as accepted by the `net`/`netip` IPv4 text
parser: a non-empty run of decimal digits, no leading zero (a multi-digit
field starting with `0` is rejected), value at most 255. -/
def parseOctet (cs : List Char) : Option Nat :=
  match cs with
  | [] => none
  | c :: rest =>
    if (c :: rest).all Char.isDigit then
      if c = '0' && !rest.isEmpty then none
      else
        let v := decVal (c :: rest)
        if v ≤ 255 then some v else none
    else none

/-- Embedding of the `net`/`netip` IPv4 dotted-quad text parser (the address
acceptance of `net.ParseIP` and of the address part of `net.ParseCIDR`):
exactly four dot-separated octets; result is the 32-bit value. -/
def parseDotted (cs : List Char) : Option Nat :=
  match splitBySep (fun c => c = '.') cs with
  | [f0, f1, f2, f3] =>
    match parseOctet f0, parseOctet f1, parseOctet f2, parseOctet f3 with
    | some b0, some b1, some b2, some b3 =>
        some (((b0 * 256 + b1) * 256 + b2) * 256 + b3)
    | _, _, _, _ => none
  | _ => none

/-- The prefix-length part of `net.ParseCIDR`: the whole string must be
consumed by the decimal scanner `dtoi` and the value must be at most 32
(for an IPv4 address).  `dtoi`'s overflow cap at `0xFFFFFF` and the partial
consumption check are both subsumed by requiring every character to be a
digit and the value to be at most 32. -/
def parsePrefixLen (cs : List Char) : Option Nat :=
  if cs.isEmpty then none
  else if cs.all Char.isDigit then
    let v := decVal cs
    if v ≤ 32 then some v else none
  else none

/-- The `IPv4` struct of `ip/ipv4.go`.  The Go struct stores `IP` (the full
address, host bits preserved), `Mask` and `Net`; `Mask` and `Net.Mask` are
always the contiguous CIDR mask produced by `net.ParseCIDR` and `Net.IP` is
the masked address, so the address and the prefix length determine all
fields.  We store exactly those two. -/
structure IPv4 where
  ip : Nat
  prefixLen : Nat
deriving DecidableEq

/-- Go `net.CIDRMask(ones, 32)` as a 32-bit value: `ones` leading one bits.
Equals `0xFFFFFFFF << (32-ones)` truncated to 32 bits. -/
def cidrMask (ones : Nat) : Nat := 2 ^ 32 - 2 ^ (32 - ones)

/-- Go `^m` on a `uint32` holding `m ≤ 0xFFFFFFFF`: bitwise complement. -/
def compl32 (m : Nat) : Nat := 0xFFFFFFFF - m

/-- Accessor `PrefixLength` (`ip.Net.Mask.Size()`, the ones count of the
contiguous mask). -/
def PrefixLength (nw : IPv4) : Nat := nw.prefixLen

/-- The network address `ip & mask` (the value of `ip.Net.IP`). -/
def netAddr (nw : IPv4) : Nat := nw.ip &&& cidrMask nw.prefixLen

/-- Accessor `Address` from `ip/ipv4.go`: the stored IP in dotted decimal. -/
def Address (nw : IPv4) : List Char := intToIPv4 nw.ip

/-- Accessor `Network` from `ip/ipv4.go`: `ip.Net.IP.String()`. -/
def Network (nw : IPv4) : List Char := intToIPv4 (netAddr nw)

/-- Accessor `Broadcast` from `ip/ipv4.go`: `ipInt32 | ^maskInt32` rendered
in dotted decimal. -/
def Broadcast (nw : IPv4) : List Char :=
  intToIPv4 (nw.ip ||| compl32 (cidrMask nw.prefixLen))

/-- Accessor `FirstHost` from `ip/ipv4.go`, including its `switch` on the
mask: for `/32` and `/31` masks the result is `ipInt32` itself, otherwise
the network address plus one (which cannot overflow since the mask has at
least two zero bits). -/
def FirstHost (nw : IPv4) : List Char :=
  let ipInt32 := nw.ip
  let maskInt32 := cidrMask nw.prefixLen
  let firstHostInt32 :=
    if maskInt32 = 0xFFFFFFFF then ipInt32
    else if maskInt32 = 0xFFFFFFFE then ipInt32
    else (ipInt32 &&& maskInt32) + 1
  intToIPv4 firstHostInt32

/-- Accessor `LastHost` from `ip/ipv4.go`: for a `/32` mask the address
itself, for a `/31` mask `ipInt32 | ^maskInt32`, otherwise
`(ipInt32 & maskInt32) | (^maskInt32 - 1)` (Go parses `^m - 1` as
`(^m) - 1`). -/
def LastHost (nw : IPv4) : List Char :=
  let ipInt32 := nw.ip
  let maskInt32 := cidrMask nw.prefixLen
  let lastHostInt32 :=
    if maskInt32 = 0xFFFFFFFF then ipInt32
    else if maskInt32 = 0xFFFFFFFE then ipInt32 ||| compl32 maskInt32
    else (ipInt32 &&& maskInt32) ||| (compl32 maskInt32 - 1)
  intToIPv4 lastHostInt32

/-- Accessor `UsableHosts` from `ip/ipv4.go`: 0 for `/32`, 2 for `/31`,
otherwise `^maskInt32 - 1`. -/
def UsableHosts (nw : IPv4) : Nat :=
  let maskInt32 := cidrMask nw.prefixLen
  let ones := nw.prefixLen
  if ones = 32 then 0
  else if ones = 31 then 2
  else compl32 maskInt32 - 1

/-- Accessor `NetworkSize` from `ip/ipv4.go`: `^maskInt32 + 1` in `uint32`
arithmetic, with the `/0` case clamped to `4294967295`. -/
def NetworkSize (nw : IPv4) : Nat :=
  let maskInt32 := cidrMask nw.prefixLen
  let ones := nw.prefixLen
  let networkSize := (compl32 maskInt32 + 1) % 2 ^ 32
  if ones = 0 then 4294967295 else networkSize

/-- The `String` method of `ip/ipv4.go`: `"%s/%d"` of the stored address
(host bits preserved) and the prefix length. -/
def cidrString (nw : IPv4) : List Char :=
  intToIPv4 nw.ip ++ '/' :: natDecChars nw.prefixLen

/-- Embedding of `net.ParseCIDR` on IPv4 text: split at the first `/`,
parse the address part as a dotted quad and the rest as a prefix length.
The returned struct keeps the unmasked address (Go returns both the full
`ip` and the masked `ipnet`; see `IPv4`). -/
def ParseCIDR (cs : List Char) : Except IPErr IPv4 :=
  let addr := cs.takeWhile (fun c => c ≠ '/')
  let rest := cs.dropWhile (fun c => c ≠ '/')
  match rest with
  | [] => .error .cidrParse
  | _ :: mask =>
    match parseDotted addr, parsePrefixLen mask with
    | some n, some p => .ok ⟨n, p⟩
    | _, _ => .error .cidrParse

/-- The separator predicate of `ParseIPv4`'s `strings.FieldsFunc` call:
`'/'` and `' '`. -/
def isSepC (c : Char) : Bool := c = '/' || c = ' '

/-- Embedding of `strings.FieldsFunc`: maximal runs of non-separator
characters; empty fields are dropped. -/
def fieldsFunc (f : Char → Bool) (cs : List Char) : List (List Char) :=
  (splitBySep f cs).filter (fun g => !g.isEmpty)

/-- Embedding of `IsIPv4` from `ip/ip.go`: `net.ParseIP` succeeds and the
string contains a dot. -/
def IsIPv4 (cs : List Char) : Bool :=
  (parseDotted cs).isSome && cs.contains '.'

/-- Count of leading one bits of a 32-bit value, examining bits from the
most significant downwards until the first zero bit (the bitwise content of
the `net` package's `simpleMaskLength` loop). -/
def leadOnesAux (m : Nat) : Nat → Nat
  | 0 => 0
  | k + 1 => if m.testBit k then leadOnesAux m k + 1 else 0

/-- Leading ones of a 32-bit value, starting at bit 31. -/
def leadOnes (m : Nat) : Nat := leadOnesAux m 32

/-- Embedding of `net.IPMask.Size` on a 4-byte mask value: the count of
leading one bits, valid only when every bit after the first zero bit is
zero (otherwise Go's `simpleMaskLength` returns `-1` and `Size` yields
`(0, 0)`). -/
def simpleMaskLength (m : Nat) : Option Nat :=
  let p := leadOnes m
  if m % 2 ^ (32 - p) = 0 then some p else none

/-- Embedding of `NetmaskPrefixLength` from `ip/ipv4.go`: parse the dotted
netmask (failure: `ErrInvalidNetmask`), then take `Size()` of the 4-byte
mask; a non-contiguous mask makes `Size` return 0 bits which the Go code
rejects as `ErrInvalidNetmask`. -/
def NetmaskPrefixLength (mask : List Char) : Except IPErr Nat :=
  match parseDotted mask with
  | none => .error .invalidNetmask
  | some m =>
    match simpleMaskLength m with
    | none => .error .invalidNetmask
    | some ones => .ok ones

/-- The hex-conversion loop at the top of `ParseIPv4`: each part that
`IsIPv4Hex` recognizes is replaced by its dotted-decimal conversion, the
first conversion error aborting the whole parse. -/
def convertHexParts : List (List Char) → Except IPErr (List (List Char))
  | [] => .ok []
  | part :: rest =>
    if IsIPv4Hex part then
      match ParseIPv4FromHex part with
      | .ok dotted =>
        match convertHexParts rest with
        | .ok others => .ok (dotted :: others)
        | .error e => .error e
      | .error e => .error e
    else
      match convertHexParts rest with
      | .ok others => .ok (part :: others)
      | .error e => .error e

/-- Join parts with `/` (the `strings.Join(parts, "/")` of `ParseIPv4`). -/
def joinSlash : List (List Char) → List Char
  | [] => []
  | [x] => x
  | x :: rest => x ++ '/' :: joinSlash rest

/-- Embedding of `ParseIPv4` from `ip/ipv4.go`: split the input on `/` and
space, convert hexadecimal parts, turn a dotted-decimal second part into a
prefix length, default the prefix length to 24 for a single part, reject
any other part count, then reassemble with `/` and parse as CIDR. -/
def ParseIPv4 (s : List Char) : Except IPErr IPv4 :=
  match convertHexParts (fieldsFunc isSepC s) with
  | .error e => .error e
  | .ok parts =>
    match parts with
    | [a, b] =>
      if IsIPv4 b then
        match NetmaskPrefixLength b with
        | .error e => .error e
        | .ok ones => ParseCIDR (joinSlash [a, natDecChars ones])
      else ParseCIDR (joinSlash [a, b])
    | [a] => ParseCIDR (joinSlash [a, ['2', '4']])
    | _ => .error .invalidAddress

/-- The spec's `parseNetwork` entry point, on Lean strings. -/
def parseNetwork (s : String) : Except IPErr IPv4 := ParseIPv4 s.data

instance {ε α : Type} [DecidableEq ε] [DecidableEq α] : DecidableEq (Except ε α)
  | .ok a, .ok b =>
    decidable_of_iff (a = b) ⟨fun h => by rw [h], fun h => by injection h⟩
  | .error a, .error b =>
    decidable_of_iff (a = b) ⟨fun h => by rw [h], fun h => by injection h⟩
  | .ok _, .error _ => .isFalse (fun h => Except.noConfusion h)
  | .error _, .ok _ => .isFalse (fun h => Except.noConfusion h)

/-- Embedding of `IPv4ToInt` from `ip/ipv4.go`: value of a dotted-decimal
string, 0 when `net.ParseIP` fails. -/
def IPv4ToInt (s : List Char) : Nat :=
  match parseDotted s with
  | some n => n
  | none => 0

/-- The child-subnet size computed by `Split`:
`int(math.Pow(2, float64(32-bits)))`.  For `0 ≤ bits ≤ 32` the float
computation is exact and yields `2^(32-bits)`; for `bits > 32` the power is
a fraction in `(0,1)` and the `int` conversion truncates it to 0.
(`bits < 0` is unreachable past `Split`'s guard since prefix lengths are
non-negative.) -/
def subnetSizeOf (bits : Int) : Int :=
  if bits ≤ 32 then (2 : Int) ^ (32 - bits).toNat else 0

/-- Result of `Split`: the subnet list, the typed guard error, an error
propagated from re-parsing a child, or the Go runtime panic that an
unguarded integer division by zero raises. -/
inductive SplitResult where
  | ok (subnets : List IPv4)
  | invalidSplit
  | parseFail (e : IPErr)
  | divByZero
deriving DecidableEq

/-- The subnet-collecting loop of `Split`, iterated over the child indices
in ascending order; the first re-parse error aborts the loop (Go returns
`nil, err` immediately). -/
def buildSubnets (f : Nat → Except IPErr IPv4) : List Nat → Except IPErr (List IPv4)
  | [] => .ok []
  | i :: rest =>
    match f i with
    | .error e => .error e
    | .ok s =>
      match buildSubnets f rest with
      | .error e => .error e
      | .ok ss => .ok (s :: ss)

/-- Embedding of `Split` from `ip/ipv4.go`.  The guard rejects
`bits < PrefixLength()`; the subnet count divides `NetworkSize()` by the
child size (a division Go reaches unguarded — divisor 0, i.e.
`bits > 32`, panics, modelled as `divByZero`); each child is produced by
rendering `startSubnet + uint32(i*subnetSize)` (`uint32` arithmetic, hence
the `% 2^32`) and re-parsing it through `ParseIPv4` with `"%s/%d"`. -/
def Split (nw : IPv4) (bits : Int) : SplitResult :=
  if (nw.prefixLen : Int) > bits then .invalidSplit
  else
    let subnetSize := subnetSizeOf bits
    if subnetSize = 0 then .divByZero
    else
      let subnetCount := ((NetworkSize nw : Int) / subnetSize).toNat
      let startSubnet := IPv4ToInt (Network nw)
      match buildSubnets
          (fun i => ParseIPv4 (intToIPv4 ((startSubnet + i * subnetSize.toNat % 2 ^ 32) % 2 ^ 32)
            ++ '/' :: natDecChars bits.toNat))
          (List.range subnetCount) with
      | .ok subnets => .ok subnets
      | .error e => .parseFail e

/-! ### Decimal rendering: basic facts and the parse/render round trip -/

theorem digitVal_digitChar {d : Nat} (h : d < 10) : digitVal (digitChar d) = d := by
  interval_cases d <;> rfl

theorem isDigit_digitChar {d : Nat} (h : d < 10) : (digitChar d).isDigit = true := by
  interval_cases d <;> rfl

theorem digitChar_ne_zero {d : Nat} (h1 : 1 ≤ d) (h2 : d < 10) : digitChar d ≠ '0' := by
  interval_cases d <;> decide

theorem natDecCharsAux_irrel (n : Nat) : ∀ fuel, n < fuel →
    natDecCharsAux fuel n = natDecCharsAux (n + 1) n := by
  induction n using Nat.strong_induction_on with
  | _ n ih =>
    intro fuel hf
    match fuel, hf with
    | f + 1, hf =>
      by_cases h10 : n < 10
      · simp [natDecCharsAux, h10]
      · have hn : 0 < n := by omega
        have hd : n / 10 < n := Nat.div_lt_self hn (by omega)
        simp only [natDecCharsAux, if_neg h10]
        rw [ih (n / 10) hd f (by omega), ih (n / 10) hd n (by omega)]

theorem natDecChars_eq (n : Nat) : natDecChars n =
    if n < 10 then [digitChar n] else natDecChars (n / 10) ++ [digitChar (n % 10)] := by
  by_cases h10 : n < 10
  · simp [natDecChars, natDecCharsAux, h10]
  · have hn : 0 < n := by omega
    have h1 : natDecChars n = natDecCharsAux n (n / 10) ++ [digitChar (n % 10)] := by
      simp only [natDecChars, natDecCharsAux, if_neg h10]
    rw [if_neg h10, h1, natDecCharsAux_irrel (n / 10) n (by omega)]
    rfl

theorem natDecChars_all_digit (n : Nat) : ∀ c ∈ natDecChars n, c.isDigit = true := by
  induction n using Nat.strong_induction_on with
  | _ n ih =>
    rw [natDecChars_eq]
    by_cases h10 : n < 10
    · simp only [if_pos h10]
      intro c hc
      simp only [List.mem_singleton] at hc
      subst hc
      exact isDigit_digitChar h10
    · have hd : n / 10 < n := Nat.div_lt_self (by omega) (by omega)
      simp only [if_neg h10]
      intro c hc
      rcases List.mem_append.mp hc with h | h
      · exact ih (n / 10) hd c h
      · simp only [List.mem_singleton] at h
        subst h
        exact isDigit_digitChar (Nat.mod_lt _ (by omega))

theorem decVal_append_digit (cs : List Char) (c : Char) :
    decVal (cs ++ [c]) = decVal cs * 10 + digitVal c := by
  simp [decVal, List.foldl_append]

theorem decVal_natDecChars (n : Nat) : decVal (natDecChars n) = n := by
  induction n using Nat.strong_induction_on with
  | _ n ih =>
    rw [natDecChars_eq]
    by_cases h10 : n < 10
    · simp only [if_pos h10, decVal, List.foldl_cons, List.foldl_nil]
      simpa using digitVal_digitChar h10
    · have hd : n / 10 < n := Nat.div_lt_self (by omega) (by omega)
      simp only [if_neg h10]
      rw [decVal_append_digit, ih (n / 10) hd, digitVal_digitChar (Nat.mod_lt _ (by omega))]
      omega

theorem natDecChars_ne_nil (n : Nat) : natDecChars n ≠ [] := by
  rw [natDecChars_eq]
  by_cases h10 : n < 10 <;> simp [h10]

theorem natDecChars_head_ne_zero (n : Nat) (h : 1 ≤ n) :
    ∃ c cs, natDecChars n = c :: cs ∧ c ≠ '0' := by
  induction n using Nat.strong_induction_on with
  | _ n ih =>
    rw [natDecChars_eq]
    by_cases h10 : n < 10
    · exact ⟨digitChar n, [], by simp [h10], digitChar_ne_zero h h10⟩
    · have hd : n / 10 < n := Nat.div_lt_self (by omega) (by omega)
      obtain ⟨c, cs, hc, hne⟩ := ih (n / 10) hd (by omega)
      exact ⟨c, cs ++ [digitChar (n % 10)], by simp [h10, hc], hne⟩

theorem natDecChars_lt_ten (n : Nat) (h : n < 10) : natDecChars n = [digitChar n] := by
  rw [natDecChars_eq, if_pos h]

theorem natDecChars_length_le_two (n : Nat) (h : n < 100) :
    (natDecChars n).length ≤ 2 := by
  rw [natDecChars_eq]
  by_cases h10 : n < 10
  · simp [h10]
  · have : n / 10 < 10 := by omega
    simp [h10, natDecChars_lt_ten _ this]

theorem natDecChars_length_le_three (n : Nat) (h : n < 1000) :
    (natDecChars n).length ≤ 3 := by
  rw [natDecChars_eq]
  by_cases h10 : n < 10
  · simp [h10]
  · have : n / 10 < 100 := by omega
    have := natDecChars_length_le_two (n / 10) this
    simp [h10]
    omega

/-! ### Field splitting -/

theorem splitBySep_ne_nil (f : Char → Bool) (cs : List Char) : splitBySep f cs ≠ [] := by
  induction cs with
  | nil => simp [splitBySep]
  | cons c rest ih =>
    obtain ⟨g, gs, hg⟩ := List.exists_cons_of_ne_nil ih
    by_cases hc : f c <;> simp [splitBySep, hg, hc]

theorem splitBySep_no_sep (f : Char → Bool) (cs : List Char)
    (h : ∀ c ∈ cs, f c = false) : splitBySep f cs = [cs] := by
  induction cs with
  | nil => rfl
  | cons c rest ih =>
    have hrest : splitBySep f rest = [rest] := ih (fun d hd => h d (by simp [hd]))
    simp [splitBySep, hrest, h c (by simp)]

theorem splitBySep_append (f : Char → Bool) (u v : List Char) (s : Char)
    (hu : ∀ c ∈ u, f c = false) (hs : f s = true) :
    splitBySep f (u ++ s :: v) = u :: splitBySep f v := by
  induction u with
  | nil =>
    obtain ⟨g, gs, hg⟩ := List.exists_cons_of_ne_nil (splitBySep_ne_nil f v)
    simp [splitBySep, hg, hs]
  | cons c u' ih =>
    have h1 : splitBySep f (u' ++ s :: v) = u' :: splitBySep f v :=
      ih (fun d hd => hu d (by simp [hd]))
    simp [splitBySep, h1, hu c (by simp)]

/-! ### Octet, dotted-quad and prefix-length round trips -/

theorem parseOctet_natDecChars (b : Nat) (hb : b ≤ 255) :
    parseOctet (natDecChars b) = some b := by
  obtain ⟨c, rest, hc⟩ := List.exists_cons_of_ne_nil (natDecChars_ne_nil b)
  have hall : (c :: rest).all Char.isDigit = true := by
    rw [← hc]
    exact List.all_eq_true.mpr (natDecChars_all_digit b)
  have hval : decVal (c :: rest) = b := by rw [← hc]; exact decVal_natDecChars b
  have hzero : (c = '0' && !rest.isEmpty) = false := by
    by_cases h10 : b < 10
    · have : natDecChars b = [digitChar b] := natDecChars_lt_ten b h10
      rw [this] at hc
      cases hc
      simp
    · obtain ⟨d, ds, hd, hdne⟩ := natDecChars_head_ne_zero b (by omega)
      rw [hd] at hc
      cases hc
      simp [hdne]
  rw [hc]
  simp only [parseOctet, hall, if_true, hzero, Bool.false_eq_true, if_false, hval,
    if_pos hb]

theorem parseOctet_le {cs : List Char} {b : Nat} (h : parseOctet cs = some b) : b ≤ 255 := by
  match cs, h with
  | c :: rest, h =>
    simp only [parseOctet] at h
    split at h
    · split at h
      · exact absurd h (by simp)
      · split at h
        · simp only [Option.some.injEq] at h
          omega
        · exact absurd h (by simp)
    · exact absurd h (by simp)

theorem dot_not_digit {c : Char} (h : c.isDigit = true) : (decide (c = '.') : Bool) = false := by
  simp only [decide_eq_false_iff_not]
  intro he
  subst he
  exact absurd h (by decide)

theorem natDecChars_no_dot (n : Nat) :
    ∀ c ∈ natDecChars n, (decide (c = '.') : Bool) = false :=
  fun c hc => dot_not_digit (natDecChars_all_digit n c hc)

theorem parseDotted_intToIPv4 (n : Nat) (h : n < 2 ^ 32) :
    parseDotted (intToIPv4 n) = some n := by
  have b0 : n >>> 24 % 256 ≤ 255 := by omega
  have b1 : n >>> 16 % 256 ≤ 255 := by omega
  have b2 : n >>> 8 % 256 ≤ 255 := by omega
  have b3 : n % 256 ≤ 255 := by omega
  have hsep : (decide ('.' = '.') : Bool) = true := by decide
  unfold parseDotted intToIPv4
  rw [splitBySep_append _ _ _ '.' (natDecChars_no_dot _) hsep,
    splitBySep_append _ _ _ '.' (natDecChars_no_dot _) hsep,
    splitBySep_append _ _ _ '.' (natDecChars_no_dot _) hsep,
    splitBySep_no_sep _ _ (natDecChars_no_dot _)]
  simp only [parseOctet_natDecChars _ b0, parseOctet_natDecChars _ b1,
    parseOctet_natDecChars _ b2, parseOctet_natDecChars _ b3]
  congr 1
  simp only [Nat.shiftRight_eq_div_pow]
  omega

theorem parseDotted_lt {cs : List Char} {n : Nat} (h : parseDotted cs = some n) :
    n < 2 ^ 32 := by
  unfold parseDotted at h
  split at h
  next f0 f1 f2 f3 _ =>
    split at h
    next b0 b1 b2 b3 h0 h1 h2 h3 =>
      have := parseOctet_le h0
      have := parseOctet_le h1
      have := parseOctet_le h2
      have := parseOctet_le h3
      simp only [Option.some.injEq] at h
      omega
    next => exact absurd h (by simp)
  next => exact absurd h (by simp)

theorem parsePrefixLen_natDecChars (b : Nat) (hb : b ≤ 32) :
    parsePrefixLen (natDecChars b) = some b := by
  have hne : ¬(natDecChars b).isEmpty := by
    simp [List.isEmpty_iff, natDecChars_ne_nil b]
  have hall : (natDecChars b).all Char.isDigit = true :=
    List.all_eq_true.mpr (natDecChars_all_digit b)
  simp [parsePrefixLen, hne, hall, decVal_natDecChars, hb]

theorem parsePrefixLen_le {cs : List Char} {p : Nat} (h : parsePrefixLen cs = some p) :
    p ≤ 32 := by
  simp only [parsePrefixLen] at h
  split at h
  · exact absurd h (by simp)
  · split at h
    · split at h
      · simp only [Option.some.injEq] at h
        omega
      · exact absurd h (by simp)
    · exact absurd h (by simp)

/-! ### Character classes of rendered addresses; `remove0x` facts -/

theorem intToIPv4_chars (n : Nat) :
    ∀ c ∈ intToIPv4 n, c.isDigit = true ∨ c = '.' := by
  intro c hc
  simp only [intToIPv4, List.mem_append, List.mem_cons] at hc
  rcases hc with h | h | h | h | h | h | h
  · exact Or.inl (natDecChars_all_digit _ c h)
  · exact Or.inr h
  · exact Or.inl (natDecChars_all_digit _ c h)
  · exact Or.inr h
  · exact Or.inl (natDecChars_all_digit _ c h)
  · exact Or.inr h
  · exact Or.inl (natDecChars_all_digit _ c h)

theorem intToIPv4_ne_nil (n : Nat) : intToIPv4 n ≠ [] := by
  unfold intToIPv4
  intro h
  exact natDecChars_ne_nil _ (List.append_eq_nil.mp h).1

theorem dot_mem_intToIPv4 (n : Nat) : '.' ∈ intToIPv4 n := by
  unfold intToIPv4
  simp

theorem remove0x_of_no_x : ∀ cs : List Char, (∀ c ∈ cs, ¬(c = 'x')) → remove0x cs = cs
  | [], _ => rfl
  | [c], _ => rfl
  | c1 :: c2 :: rest, h => by
    have hx : ¬(c1 = '0' ∧ c2 = 'x') := fun hand => h c2 (by simp) hand.2
    rw [remove0x, if_neg hx,
      remove0x_of_no_x (c2 :: rest) (fun c hc => h c (List.mem_cons_of_mem _ hc))]

theorem dot_mem_remove0x : ∀ cs : List Char, '.' ∈ cs → '.' ∈ remove0x cs
  | [c], h => by simpa [remove0x] using h
  | c1 :: c2 :: rest, h => by
    rw [remove0x]
    by_cases hand : c1 = '0' ∧ c2 = 'x'
    · rw [if_pos hand]
      have hdot : '.' ∈ rest := by
        rcases List.mem_cons.mp h with h1 | h
        · exact absurd h1.symm (by rw [hand.1]; decide)
        rcases List.mem_cons.mp h with h2 | h
        · exact absurd h2.symm (by rw [hand.2]; decide)
        · exact h
      exact dot_mem_remove0x rest hdot
    · rw [if_neg hand]
      rcases List.mem_cons.mp h with h1 | h
      · exact h1 ▸ List.mem_cons_self _ _
      · exact List.mem_cons_of_mem _ (dot_mem_remove0x (c2 :: rest) h)

theorem IsIPv4Hex_intToIPv4 (n : Nat) : IsIPv4Hex (intToIPv4 n) = false := by
  have hdot : '.' ∈ remove0x (intToIPv4 n) :=
    dot_mem_remove0x _ (dot_mem_intToIPv4 n)
  have hall : (remove0x (intToIPv4 n)).all isHexDigitC = false := by
    rw [List.all_eq_false]
    exact ⟨'.', hdot, by decide⟩
  simp [IsIPv4Hex, hall]

theorem IsIPv4Hex_natDecChars (b : Nat) (hb : b < 100) :
    IsIPv4Hex (natDecChars b) = false := by
  have hnox : remove0x (natDecChars b) = natDecChars b := by
    apply remove0x_of_no_x
    intro c hc he
    have := natDecChars_all_digit b c hc
    rw [he] at this
    exact absurd this (by decide)
  have hlen := natDecChars_length_le_two b hb
  simp only [IsIPv4Hex, hnox]
  have : ((natDecChars b).length == 8) = false := by
    simp only [beq_eq_false_iff_ne]
    omega
  simp [this]

theorem parseDotted_no_dot (cs : List Char)
    (h : ∀ c ∈ cs, (decide (c = '.') : Bool) = false) : parseDotted cs = none := by
  unfold parseDotted
  rw [splitBySep_no_sep _ _ h]

theorem IsIPv4_natDecChars (b : Nat) : IsIPv4 (natDecChars b) = false := by
  have : parseDotted (natDecChars b) = none :=
    parseDotted_no_dot _ (natDecChars_no_dot b)
  simp [IsIPv4, this]

/-! ### `fieldsFunc` and first-slash splitting -/

theorem fieldsFunc_no_sep (f : Char → Bool) (cs : List Char)
    (h : ∀ c ∈ cs, f c = false) (hne : cs ≠ []) : fieldsFunc f cs = [cs] := by
  unfold fieldsFunc
  rw [splitBySep_no_sep _ _ h]
  simp [List.isEmpty_iff, hne]

theorem fieldsFunc_two (f : Char → Bool) (u v : List Char) (s : Char)
    (hu : ∀ c ∈ u, f c = false) (hv : ∀ c ∈ v, f c = false) (hs : f s = true)
    (hune : u ≠ []) (hvne : v ≠ []) : fieldsFunc f (u ++ s :: v) = [u, v] := by
  unfold fieldsFunc
  rw [splitBySep_append _ _ _ _ hu hs, splitBySep_no_sep _ _ hv]
  simp [List.isEmpty_iff, hune, hvne]

theorem takeWhile_append_stop (p : Char → Bool) (u v : List Char) (s : Char)
    (hu : ∀ c ∈ u, p c = true) (hs : p s = false) :
    (u ++ s :: v).takeWhile p = u := by
  induction u with
  | nil => simp [List.takeWhile_cons, hs]
  | cons c u' ih =>
    have h1 := hu c (by simp)
    simp only [List.cons_append, List.takeWhile_cons, h1, if_true]
    rw [ih (fun d hd => hu d (by simp [hd]))]

theorem dropWhile_append_stop (p : Char → Bool) (u v : List Char) (s : Char)
    (hu : ∀ c ∈ u, p c = true) (hs : p s = false) :
    (u ++ s :: v).dropWhile p = s :: v := by
  induction u with
  | nil => simp [List.dropWhile_cons, hs]
  | cons c u' ih =>
    have h1 := hu c (by simp)
    simp only [List.cons_append, List.dropWhile_cons, h1, if_true]
    exact ih (fun d hd => hu d (by simp [hd]))

/-! ### Re-parsing a rendered `address/prefixLength` string -/

theorem ParseCIDR_render (a b : Nat) (ha : a < 2 ^ 32) (hb : b ≤ 32) :
    ParseCIDR (intToIPv4 a ++ '/' :: natDecChars b) = .ok ⟨a, b⟩ := by
  have hu : ∀ c ∈ intToIPv4 a, (decide (¬(c = '/')) : Bool) = true := by
    intro c hc
    rcases intToIPv4_chars a c hc with h | h
    · simp only [decide_eq_true_eq]
      intro he
      rw [he] at h
      exact absurd h (by decide)
    · rw [h]; decide
  unfold ParseCIDR
  rw [takeWhile_append_stop _ _ _ '/' hu (by decide),
    dropWhile_append_stop _ _ _ '/' hu (by decide)]
  simp only [parseDotted_intToIPv4 a ha, parsePrefixLen_natDecChars b hb]

theorem ParseIPv4_render (a b : Nat) (ha : a < 2 ^ 32) (hb : b ≤ 32) :
    ParseIPv4 (intToIPv4 a ++ '/' :: natDecChars b) = .ok ⟨a, b⟩ := by
  have hu : ∀ c ∈ intToIPv4 a, isSepC c = false := by
    intro c hc
    rcases intToIPv4_chars a c hc with h | h
    · simp only [isSepC, Bool.or_eq_false_iff, decide_eq_false_iff_not]
      constructor <;> (intro he; rw [he] at h; exact absurd h (by decide))
    · rw [h]; decide
  have hv : ∀ c ∈ natDecChars b, isSepC c = false := by
    intro c hc
    have h := natDecChars_all_digit b c hc
    simp only [isSepC, Bool.or_eq_false_iff, decide_eq_false_iff_not]
    constructor <;> (intro he; rw [he] at h; exact absurd h (by decide))
  have hfields : fieldsFunc isSepC (intToIPv4 a ++ '/' :: natDecChars b)
      = [intToIPv4 a, natDecChars b] :=
    fieldsFunc_two _ _ _ _ hu hv (by decide) (intToIPv4_ne_nil a) (natDecChars_ne_nil b)
  have hhex1 : IsIPv4Hex (intToIPv4 a) = false := IsIPv4Hex_intToIPv4 a
  have hhex2 : IsIPv4Hex (natDecChars b) = false := IsIPv4Hex_natDecChars b (by omega)
  have hconv : convertHexParts [intToIPv4 a, natDecChars b]
      = .ok [intToIPv4 a, natDecChars b] := by
    simp [convertHexParts, hhex1, hhex2]
  have hisv4 : IsIPv4 (natDecChars b) = false := IsIPv4_natDecChars b
  unfold ParseIPv4
  rw [hfields, hconv]
  simp only [hisv4, Bool.false_eq_true, if_false]
  have hjoin : joinSlash [intToIPv4 a, natDecChars b]
      = intToIPv4 a ++ '/' :: natDecChars b := by
    simp [joinSlash]
  rw [hjoin]
  exact ParseCIDR_render a b ha hb

/-! ### Well-formedness of parsed networks -/

theorem ParseCIDR_wf {cs : List Char} {nw : IPv4} (h : ParseCIDR cs = .ok nw) :
    nw.ip < 2 ^ 32 ∧ nw.prefixLen ≤ 32 := by
  simp only [ParseCIDR] at h
  split at h
  · exact absurd h (by simp)
  · split at h
    next n p hn hp =>
      simp only [Except.ok.injEq] at h
      subst h
      exact ⟨parseDotted_lt hn, parsePrefixLen_le hp⟩
    next => exact absurd h (by simp)

theorem ParseIPv4_wf {s : List Char} {nw : IPv4} (h : ParseIPv4 s = .ok nw) :
    nw.ip < 2 ^ 32 ∧ nw.prefixLen ≤ 32 := by
  unfold ParseIPv4 at h
  split at h
  · exact absurd h (by simp)
  · split at h
    · split at h
      · split at h
        · exact absurd h (by simp)
        · exact ParseCIDR_wf h
      · exact ParseCIDR_wf h
    · exact ParseCIDR_wf h
    · exact absurd h (by simp)

/-! ### Bit-level arithmetic of masks -/

theorem cidrMask_shiftLeft (p : Nat) (hp : p ≤ 32) :
    cidrMask p = (2 ^ p - 1) <<< (32 - p) := by
  have h1 : (2 : Nat) ^ p * 2 ^ (32 - p) = 2 ^ 32 := by
    rw [← pow_add]
    congr 1
    omega
  rw [Nat.shiftLeft_eq, cidrMask, Nat.sub_mul, one_mul, h1]

theorem cidrMask_lt (p : Nat) : cidrMask p < 2 ^ 32 := by
  have : 0 < 2 ^ (32 - p) := Nat.pos_pow_of_pos _ (by omega)
  have : (0 : Nat) < 2 ^ 32 := by positivity
  unfold cidrMask
  omega

theorem and_cidrMask (ip p : Nat) (hip : ip < 2 ^ 32) (hp : p ≤ 32) :
    ip &&& cidrMask p = 2 ^ (32 - p) * (ip / 2 ^ (32 - p)) := by
  have hr : 2 ^ (32 - p) * (ip / 2 ^ (32 - p)) = (ip >>> (32 - p)) <<< (32 - p) := by
    rw [Nat.shiftRight_eq_div_pow, Nat.shiftLeft_eq, Nat.mul_comm]
  rw [hr, cidrMask_shiftLeft p hp]
  apply Nat.eq_of_testBit_eq
  intro i
  simp only [Nat.testBit_and, Nat.testBit_shiftLeft, Nat.testBit_shiftRight,
    Nat.testBit_two_pow_sub_one]
  by_cases hik : 32 - p ≤ i
  · have he : 32 - p + (i - (32 - p)) = i := by omega
    rw [he]
    by_cases hi32 : i < 32
    · have : i - (32 - p) < p := by omega
      simp [hik, this]
    · have h1 : ip.testBit i = false :=
        Nat.testBit_lt_two_pow (lt_of_lt_of_le hip (Nat.pow_le_pow_right (by omega) (by omega)))
      simp [h1]
  · simp [hik]

theorem netAddr_eq (nw : IPv4) (hip : nw.ip < 2 ^ 32) (hp : nw.prefixLen ≤ 32) :
    netAddr nw = 2 ^ (32 - nw.prefixLen) * (nw.ip / 2 ^ (32 - nw.prefixLen)) :=
  and_cidrMask nw.ip nw.prefixLen hip hp

theorem netAddr_le (nw : IPv4) (hip : nw.ip < 2 ^ 32) (hp : nw.prefixLen ≤ 32) :
    netAddr nw ≤ nw.ip := by
  rw [netAddr_eq nw hip hp, Nat.mul_comm]
  exact Nat.div_mul_le_self _ _

/-! ### Leading-ones analysis for `simpleMaskLength` -/

theorem leadOnesAux_le (m : Nat) : ∀ k, leadOnesAux m k ≤ k := by
  intro k
  induction k with
  | zero => simp [leadOnesAux]
  | succ k ih =>
    rw [leadOnesAux]
    split
    · omega
    · omega

theorem leadOnesAux_high (m : Nat) : ∀ k i, k - leadOnesAux m k ≤ i → i < k →
    m.testBit i = true := by
  intro k
  induction k with
  | zero => omega
  | succ k ih =>
    intro i h1 h2
    rw [leadOnesAux] at h1
    split at h1
    · by_cases hik : i = k
      · subst hik
        assumption
      · exact ih i (by have := leadOnesAux_le m k; omega) (by omega)
    · omega

theorem leadOnesAux_stop (m : Nat) : ∀ k, leadOnesAux m k < k →
    m.testBit (k - leadOnesAux m k - 1) = false := by
  intro k
  induction k with
  | zero => omega
  | succ k ih
  => intro h
     rw [leadOnesAux] at h ⊢
     split
     next hbit =>
       rw [if_pos hbit] at h
       have h2 : leadOnesAux m k < k := by omega
       have := ih h2
       have he : k + 1 - (leadOnesAux m k + 1) - 1 = k - leadOnesAux m k - 1 := by omega
       rw [he]
       exact this
     next hbit =>
       simpa using Bool.eq_false_iff.mpr hbit

theorem mask_of_leadOnes (m : Nat) (hm : m < 2 ^ 32)
    (h : m % 2 ^ (32 - leadOnes m) = 0) : m = cidrMask (leadOnes m) := by
  simp only [leadOnes] at h ⊢
  have hle : leadOnesAux m 32 ≤ 32 := leadOnesAux_le m 32
  rw [cidrMask_shiftLeft (leadOnesAux m 32) hle]
  have hdvd : m = 2 ^ (32 - leadOnesAux m 32) * (m / 2 ^ (32 - leadOnesAux m 32)) :=
    (Nat.mul_div_cancel' (Nat.dvd_of_mod_eq_zero h)).symm
  apply Nat.eq_of_testBit_eq
  intro i
  simp only [Nat.testBit_shiftLeft, Nat.testBit_two_pow_sub_one]
  by_cases hlow : i < 32 - leadOnesAux m 32
  · have hd : (decide (i ≥ 32 - leadOnesAux m 32) : Bool) = false := by
      simp only [ge_iff_le, decide_eq_false_iff_not]
      omega
    have hbit : m.testBit i = false := by
      rw [hdvd, Nat.mul_comm, ← Nat.shiftLeft_eq, Nat.testBit_shiftLeft, hd, Bool.false_and]
    rw [hbit, hd, Bool.false_and]
  · by_cases hi32 : i < 32
    · have hbit : m.testBit i = true := leadOnesAux_high m 32 i (by omega) hi32
      have hd : (decide (i ≥ 32 - leadOnesAux m 32) : Bool) = true := by
        simp only [ge_iff_le, decide_eq_true_eq]
        omega
      have hd2 : (decide (i - (32 - leadOnesAux m 32) < leadOnesAux m 32) : Bool) = true := by
        simp only [decide_eq_true_eq]
        omega
      rw [hbit, hd, hd2, Bool.and_self]
    · have hbit : m.testBit i = false :=
        Nat.testBit_lt_two_pow (lt_of_lt_of_le hm (Nat.pow_le_pow_right (by omega) (by omega)))
      have hd2 : (decide (i - (32 - leadOnesAux m 32) < leadOnesAux m 32) : Bool) = false := by
        simp only [decide_eq_false_iff_not]
        omega
      rw [hbit, hd2, Bool.and_false]

theorem simpleMaskLength_none (m : Nat) (hm : m < 2 ^ 32)
    (h : ∀ p, p ≤ 32 → m ≠ cidrMask p) : simpleMaskLength m = none := by
  unfold simpleMaskLength
  by_cases hz : m % 2 ^ (32 - leadOnes m) = 0
  · exact absurd (mask_of_leadOnes m hm hz) (h _ (leadOnesAux_le m 32))
  · simp [hz]

/-! ### Hexadecimal digit values and `ParseInt` on digit pairs -/

theorem char_toNat_le_of_le {a b : Char} (h : a ≤ b) : a.toNat ≤ b.toNat :=
  BitVec.le_def.mp (UInt32.le_def.mp (Char.le_def.mp h))

theorem isDigit_toNat {c : Char} (h : c.isDigit = true) :
    48 ≤ c.toNat ∧ c.toNat ≤ 57 := by
  simp only [Char.isDigit, ge_iff_le, Bool.and_eq_true, decide_eq_true_eq] at h
  exact ⟨BitVec.le_def.mp (UInt32.le_def.mp h.1), BitVec.le_def.mp (UInt32.le_def.mp h.2)⟩

theorem hexVal_le {c : Char} (h : isHexDigitC c = true) : hexVal c ≤ 15 := by
  simp only [isHexDigitC, Bool.or_eq_true, Bool.and_eq_true, decide_eq_true_eq] at h
  unfold hexVal
  rcases h with (h | ⟨h1, h2⟩) | ⟨h1, h2⟩
  · have := isDigit_toNat h
    simp only [h, if_true]
    omega
  · have ha := char_toNat_le_of_le h1
    have hf := char_toNat_le_of_le h2
    have hA : ('a' : Char).toNat = 97 := rfl
    have hF : ('f' : Char).toNat = 102 := rfl
    rw [hA] at ha
    rw [hF] at hf
    by_cases hd : c.isDigit = true
    · have := isDigit_toNat hd
      omega
    · simp only [Bool.not_eq_true] at hd
      have hab : ('a' ≤ c && c ≤ 'f') = true := by
        simp only [Bool.and_eq_true, decide_eq_true_eq]
        exact ⟨h1, h2⟩
      simp only [hd, Bool.false_eq_true, if_false, hab, if_true]
      omega
  · have ha := char_toNat_le_of_le h1
    have hf := char_toNat_le_of_le h2
    have hA : ('A' : Char).toNat = 65 := rfl
    have hF : ('F' : Char).toNat = 70 := rfl
    rw [hA] at ha
    rw [hF] at hf
    have hd : c.isDigit = false := by
      by_contra hcon
      simp only [Bool.not_eq_false] at hcon
      have := isDigit_toNat hcon
      omega
    have hab : ('a' ≤ c && c ≤ 'f') = false := by
      simp only [Bool.and_eq_false_iff, decide_eq_false_iff_not]
      left
      intro hcon
      have := char_toNat_le_of_le hcon
      have hA2 : ('a' : Char).toNat = 97 := rfl
      rw [hA2] at this
      omega
    simp only [hd, Bool.false_eq_true, if_false, hab, if_true]
    omega

theorem hex_not_sign {c : Char} (h : isHexDigitC c = true) :
    ¬(c = '-') ∧ ¬(c = '+') := by
  constructor <;> (intro he; rw [he] at h; exact absurd h (by decide))

theorem goParseIntHex16_pair {c1 c2 : Char} (h1 : isHexDigitC c1 = true)
    (h2 : isHexDigitC c2 = true) :
    goParseIntHex16 [c1, c2] = some ((hexVal c1 * 16 + hexVal c2 : Nat) : Int) := by
  obtain ⟨hm, hp⟩ := hex_not_sign h1
  have hsign : ¬(c1 = '-' ∨ c1 = '+') := by tauto
  have hall : ([c1, c2].all isHexDigitC) = true := by simp [h1, h2]
  have hv : [c1, c2].foldl (fun a d => a * 16 + hexVal d) 0 = hexVal c1 * 16 + hexVal c2 := by
    simp [List.foldl]
  have hb : hexVal c1 * 16 + hexVal c2 ≤ 32767 := by
    have := hexVal_le h1
    have := hexVal_le h2
    omega
  simp only [goParseIntHex16, if_neg hsign, List.isEmpty_cons, Bool.false_eq_true,
    if_false, hall, if_true, hv, if_neg hm, if_pos hb]

/-- A list of length 8 is literally an eight-element list. -/
theorem list_len8 {α : Type} (l : List α) (h : l.length = 8) :
    ∃ a0 a1 a2 a3 a4 a5 a6 a7, l = [a0, a1, a2, a3, a4, a5, a6, a7] := by
  match l, h with
  | [a0, a1, a2, a3, a4, a5, a6, a7], _ =>
    exact ⟨a0, a1, a2, a3, a4, a5, a6, a7, rfl⟩

/-! ### `buildSubnets` on an all-successes range -/

theorem buildSubnets_ok (f : Nat → Except IPErr IPv4) (g : Nat → IPv4) :
    ∀ l : List Nat, (∀ i ∈ l, f i = .ok (g i)) →
    buildSubnets f l = .ok (l.map g) := by
  intro l
  induction l with
  | nil => intro _; rfl
  | cons i rest ih =>
    intro h
    rw [buildSubnets, h i (by simp), ih (fun j hj => h j (List.mem_cons_of_mem _ hj))]
    rfl

/-! ### `NetworkSize` arithmetic -/

theorem NetworkSize_of_pos (nw : IPv4) (h1 : 1 ≤ nw.prefixLen) (h2 : nw.prefixLen ≤ 32) :
    NetworkSize nw = 2 ^ (32 - nw.prefixLen) := by
  have hz : ¬(nw.prefixLen = 0) := by omega
  have hk1 : (2 : Nat) ^ (32 - nw.prefixLen) ≤ 2 ^ 31 :=
    Nat.pow_le_pow_right (by omega) (by omega)
  have h31 : (2 : Nat) ^ 31 = 2147483648 := by norm_num
  have h32 : (2 : Nat) ^ 32 = 4294967296 := by norm_num
  rw [h31] at hk1
  have hpos : 0 < (2 : Nat) ^ (32 - nw.prefixLen) := Nat.pos_pow_of_pos _ (by omega)
  simp only [NetworkSize, compl32, cidrMask, hz, if_false, h32]
  generalize hx : (2 : Nat) ^ (32 - nw.prefixLen) = x at hk1 hpos ⊢
  omega

theorem NetworkSize_of_zero (nw : IPv4) (h : nw.prefixLen = 0) :
    NetworkSize nw = 4294967295 := by
  simp [NetworkSize, h]

/-! ### Tiling an interval by equal blocks -/

theorem block_tiling (N k count : Nat) (hk : 0 < k) (a : Nat) :
    (N ≤ a ∧ a < N + count * k) ↔
    ∃ i, i < count ∧ N + i * k ≤ a ∧ a < N + i * k + k := by
  constructor
  · rintro ⟨h1, h2⟩
    refine ⟨(a - N) / k, ?_, ?_, ?_⟩
    · rw [Nat.div_lt_iff_lt_mul hk]
      omega
    · have hdm := Nat.div_add_mod (a - N) k
      have := Nat.mod_lt (a - N) hk
      calc N + (a - N) / k * k = N + k * ((a - N) / k) := by rw [Nat.mul_comm]
        _ ≤ a := by omega
    · have hdm := Nat.div_add_mod (a - N) k
      have := Nat.mod_lt (a - N) hk
      have : a - N < k * ((a - N) / k) + k := by omega
      calc a = N + (a - N) := by omega
        _ < N + (k * ((a - N) / k) + k) := by omega
        _ = N + (a - N) / k * k + k := by rw [Nat.mul_comm]; omega
  · rintro ⟨i, hi, hle, hlt⟩
    have hik : (i + 1) * k ≤ count * k := Nat.mul_le_mul_right k (by omega)
    rw [Nat.add_mul, Nat.one_mul] at hik
    omega

/-! ## Claim theorems -/

set_option maxRecDepth 10000

/-- C1, counterexample: the claim says the first usable host of a `/31`
network equals the network address and that `parseNetwork("10.0.0.1/31")`
has first host `10.0.0.0`.  The code (and its own test suite) returns the
parsed address itself — `10.0.0.1` — which differs from the network
address `10.0.0.0`. -/
theorem C1_counterexample :
    parseNetwork ("10.0.0.1/31") = .ok ⟨0x0A000001, 31⟩ ∧
    FirstHost ⟨0x0A000001, 31⟩ = ("10.0.0.1").data ∧
    Network ⟨0x0A000001, 31⟩ = ("10.0.0.0").data ∧
    ¬ FirstHost ⟨0x0A000001, 31⟩ = ("10.0.0.0").data := by
  decide

/-- C1, amended: for every parsed `/31` network the first usable host is the
parsed address itself (host bit preserved; it equals the network address
exactly when the address's low bit is zero), the last usable host is the
broadcast address, and the usable-host count is 2. -/
theorem C1_amended (s : List Char) (nw : IPv4) (h : ParseIPv4 s = .ok nw)
    (h31 : nw.prefixLen = 31) :
    FirstHost nw = Address nw ∧
    LastHost nw = Broadcast nw ∧
    UsableHosts nw = 2 ∧
    (nw.ip % 2 = 0 → FirstHost nw = Network nw) := by
  obtain ⟨hip, _⟩ := ParseIPv4_wf h
  have hm : cidrMask 31 = 0xFFFFFFFE := by decide
  have hne : ¬((0xFFFFFFFE : Nat) = 0xFFFFFFFF) := by decide
  refine ⟨?_, ?_, ?_, ?_⟩
  · simp only [FirstHost, Address, h31, hm, hne, if_false, if_true]
  · simp only [LastHost, Broadcast, h31, hm, hne, if_false, if_true]
  · simp only [UsableHosts, h31]
    decide
  · intro heven
    have hna : netAddr nw = nw.ip := by
      rw [netAddr_eq nw hip (by omega)]
      rw [h31]
      omega
    simp only [FirstHost, Network, hna, h31, hm, hne, if_false, if_true]

/-- C1, witness for the amended theorem at `10.0.0.0/31`. -/
theorem C1_witness :
    FirstHost ⟨0x0A000000, 31⟩ = Address ⟨0x0A000000, 31⟩ ∧
    LastHost ⟨0x0A000000, 31⟩ = Broadcast ⟨0x0A000000, 31⟩ ∧
    UsableHosts ⟨0x0A000000, 31⟩ = 2 ∧
    ((0x0A000000 : Nat) % 2 = 0 → FirstHost ⟨0x0A000000, 31⟩ = Network ⟨0x0A000000, 31⟩) :=
  C1_amended (("10.0.0.0/31").data) ⟨0x0A000000, 31⟩ (by decide) rfl

/-- C3, counterexample: the claim says an uppercase `0X` prefix is accepted
and that every rejected token fails with `InvalidHexAddress`.  The code only
deletes the lowercase substring `0x`, so `0X12345678` is not recognized and
its conversion fails with the distinct length error. -/
theorem C3_counterexample :
    IsIPv4Hex (("0X12345678").data) = false ∧
    ParseIPv4FromHex (("0X12345678").data) = .error .invalidHexLength := by
  decide

/-- C3, amended: only the lowercase substring `0x` is deleted (every
occurrence).  A token whose deletion result is exactly 8 hexadecimal digits
is recognized and converts successfully; a deletion result of any other
length fails with the length error (not `InvalidHexAddress`); a deletion
result of length 8 one of whose 2-character groups is rejected by
`strconv.ParseInt(_, 16, 16)` fails with `InvalidHexAddress`. -/
theorem C3_amended :
    (∀ t : List Char, (remove0x t).length = 8 → (remove0x t).all isHexDigitC = true →
      IsIPv4Hex t = true ∧ (ParseIPv4FromHex t).isOk = true) ∧
    (∀ t : List Char, ¬((remove0x t).length = 8) →
      IsIPv4Hex t = false ∧ ParseIPv4FromHex t = .error .invalidHexLength) ∧
    (∀ t : List Char, (remove0x t).length = 8 →
      (goParseIntHex16 ((remove0x t).take 2) = none ∨
        goParseIntHex16 (((remove0x t).drop 2).take 2) = none ∨
        goParseIntHex16 (((remove0x t).drop 4).take 2) = none ∨
        goParseIntHex16 (((remove0x t).drop 6).take 2) = none) →
      ParseIPv4FromHex t = .error .invalidHexAddress) := by
  refine ⟨?_, ?_, ?_⟩
  · intro t h8 hall
    obtain ⟨c0, c1, c2, c3, c4, c5, c6, c7, he⟩ := list_len8 _ h8
    have hhex : ∀ c ∈ remove0x t, isHexDigitC c = true := List.all_eq_true.mp hall
    rw [he] at hhex
    constructor
    · simp [IsIPv4Hex, h8, hall]
    · unfold ParseIPv4FromHex
      rw [if_neg (by omega)]
      rw [he]
      have p01 := goParseIntHex16_pair (hhex c0 (by simp)) (hhex c1 (by simp))
      have p23 := goParseIntHex16_pair (hhex c2 (by simp)) (hhex c3 (by simp))
      have p45 := goParseIntHex16_pair (hhex c4 (by simp)) (hhex c5 (by simp))
      have p67 := goParseIntHex16_pair (hhex c6 (by simp)) (hhex c7 (by simp))
      simp only [List.take, List.drop]
      rw [p01, p23, p45, p67]
      rfl
  · intro t h8
    constructor
    · have : ((remove0x t).length == 8) = false := by
        simp only [beq_eq_false_iff_ne]
        omega
      simp [IsIPv4Hex, this]
    · unfold ParseIPv4FromHex
      rw [if_pos (by omega)]
  · intro t h8 hfail
    unfold ParseIPv4FromHex
    rw [if_neg (by omega)]
    split
    next b0 b1 b2 b3 h0 h1 h2 h3 =>
      rcases hfail with h | h | h | h <;> simp_all
    next => rfl

/-- C3, witness for the amended theorem: a recognized lowercase-prefixed
token, a wrong-length token, and an 8-character token with a bad group. -/
theorem C3_witness :
    (IsIPv4Hex (("0xc0a800fe").data) = true ∧
      (ParseIPv4FromHex (("0xc0a800fe").data)).isOk = true) ∧
    (IsIPv4Hex (("abc").data) = false ∧
      ParseIPv4FromHex (("abc").data) = .error .invalidHexLength) ∧
    ParseIPv4FromHex (("1234567g").data) = .error .invalidHexAddress :=
  ⟨C3_amended.1 _ (by decide) (by decide),
   C3_amended.2.1 _ (by decide),
   C3_amended.2.2 _ (by decide) (by decide)⟩

/-- C4: a dotted-decimal second token is converted to a prefix length by
counting leading one bits, any non-contiguous 32-bit value is rejected with
`InvalidNetmask`, and parsing `10.0.0.1 255.255.255.0` gives the same
network as parsing `10.0.0.1/24`. -/
theorem C4 :
    ParseIPv4 (("10.0.0.1 255.255.255.0").data) = ParseIPv4 (("10.0.0.1/24").data) ∧
    (∀ p : Nat, p ≤ 32 → NetmaskPrefixLength (intToIPv4 (cidrMask p)) = .ok p) ∧
    (∀ m : Nat, m < 2 ^ 32 → (∀ p, p ≤ 32 → ¬(m = cidrMask p)) →
      NetmaskPrefixLength (intToIPv4 m) = .error .invalidNetmask) := by
  refine ⟨by decide, ?_, ?_⟩
  · have h : ∀ p < 33, NetmaskPrefixLength (intToIPv4 (cidrMask p)) = .ok p := by decide
    intro p hp
    exact h p (by omega)
  · intro m hm hmask
    unfold NetmaskPrefixLength
    simp only [parseDotted_intToIPv4 m hm]
    rw [simpleMaskLength_none m hm hmask]

/-- C4, witness: the contiguous mask `255.255.255.0` converts to 24 and the
non-contiguous value 5 (`0.0.0.5`) is rejected. -/
theorem C4_witness :
    NetmaskPrefixLength (intToIPv4 (cidrMask 24)) = .ok 24 ∧
    NetmaskPrefixLength (intToIPv4 5) = .error .invalidNetmask :=
  ⟨C4.2.1 24 (by omega), C4.2.2 5 (by decide) (by decide)⟩

/-- C5: for a parsed network, `Split` returns the typed `InvalidSplit`
error exactly when the target prefix length is smaller than the network's
prefix length. -/
theorem C5 (s : List Char) (nw : IPv4) (_hparse : ParseIPv4 s = .ok nw) (bits : Int) :
    Split nw bits = .invalidSplit ↔ bits < (nw.prefixLen : Int) := by
  constructor
  · intro h
    by_contra hc
    rw [Int.not_lt] at hc
    simp only [Split] at h
    rw [if_neg (by omega)] at h
    split at h
    · exact SplitResult.noConfusion h
    · split at h
      · exact SplitResult.noConfusion h
      · exact SplitResult.noConfusion h
  · intro h
    simp only [Split]
    rw [if_pos (by omega)]

/-- C5, witness at `10.0.0.0/24` with target 23. -/
theorem C5_witness :
    Split ⟨0x0A000000, 24⟩ 23 = .invalidSplit ↔ (23 : Int) < (24 : Nat) :=
  C5 (("10.0.0.0/24").data) ⟨0x0A000000, 24⟩ (by decide) 23

/-- C6: for every parsed network, `NetworkSize` is `2^(32-prefixLength)`
when the prefix length is at least 1, and the `/0` case is clamped to the
maximum unsigned 32-bit value `4294967295`. -/
theorem C6 (s : List Char) (nw : IPv4) (hparse : ParseIPv4 s = .ok nw) :
    (1 ≤ nw.prefixLen → NetworkSize nw = 2 ^ (32 - nw.prefixLen)) ∧
    (nw.prefixLen = 0 → NetworkSize nw = 4294967295) := by
  obtain ⟨_, hp⟩ := ParseIPv4_wf hparse
  exact ⟨fun h1 => NetworkSize_of_pos nw h1 hp, fun h0 => NetworkSize_of_zero nw h0⟩

/-- C6, witness at `10.0.0.1/24`. -/
theorem C6_witness :
    (1 ≤ 24 → NetworkSize ⟨0x0A000001, 24⟩ = 2 ^ (32 - 24)) ∧
    ((24 : Nat) = 0 → NetworkSize ⟨0x0A000001, 24⟩ = 4294967295) :=
  C6 (("10.0.0.1/24").data) ⟨0x0A000001, 24⟩ (by decide)

/-- C8: re-parsing a parsed network's own CIDR string (address with host
bits preserved, slash, prefix length) returns an equal network. -/
theorem C8 (s : List Char) (nw : IPv4) (h : ParseIPv4 s = .ok nw) :
    ParseIPv4 (cidrString nw) = .ok nw := by
  obtain ⟨hip, hp⟩ := ParseIPv4_wf h
  exact ParseIPv4_render nw.ip nw.prefixLen hip hp

/-- C8, witness at `10.0.0.1/31` (host bits preserved through the render). -/
theorem C8_witness :
    ParseIPv4 (cidrString ⟨0x0A000001, 31⟩) = .ok ⟨0x0A000001, 31⟩ :=
  C8 (("10.0.0.1/31").data) ⟨0x0A000001, 31⟩ (by decide)

/-- C9: `Split` validates only the lower bound of the target prefix: the
computed child size is non-zero exactly when the target is at most 32, and
for any parsed network and any target above 32 the division is reached with
divisor 0 (a runtime panic), not a typed error. -/
theorem C9 (s : List Char) (nw : IPv4) (hparse : ParseIPv4 s = .ok nw) (bits : Int)
    (hb : 32 < bits) :
    Split nw bits = .divByZero ∧ (∀ b : Int, ¬(subnetSizeOf b = 0) ↔ b ≤ 32) := by
  constructor
  · obtain ⟨_, hp⟩ := ParseIPv4_wf hparse
    have hple : (nw.prefixLen : Int) ≤ 32 := by exact_mod_cast hp
    simp only [Split]
    rw [if_neg (by omega), if_pos (by simp [subnetSizeOf]; omega)]
  · intro b
    unfold subnetSizeOf
    split
    next hle =>
      have : (2 : Int) ^ (32 - b).toNat ≠ 0 := pow_ne_zero _ (by omega)
      simp [this, hle]
    next hgt =>
      simp
      omega

/-- C9, witness at `10.0.0.0/24` with target 33. -/
theorem C9_witness :
    Split ⟨0x0A000000, 24⟩ 33 = .divByZero ∧
    (∀ b : Int, ¬(subnetSizeOf b = 0) ↔ b ≤ 32) :=
  C9 (("10.0.0.0/24").data) ⟨0x0A000000, 24⟩ (by decide) 33 (by decide)

/-- C10: the recognizer deletes every lowercase `0x` occurrence anywhere in
the token, so `12340x5678` is recognized as hexadecimal and converts
exactly like `12345678` (to `18.52.86.120`). -/
theorem C10 :
    IsIPv4Hex (("12340x5678").data) = true ∧
    ParseIPv4FromHex (("12340x5678").data) = .ok (("18.52.86.120").data) ∧
    ParseIPv4FromHex (("12340x5678").data) = ParseIPv4FromHex (("12345678").data) := by
  decide

/-- C2, counterexample: for the parsed parent `0.0.0.0/0` and target prefix
length 1 (a "valid split" per the claim), `Split` returns a single `/1`
child, because the clamped `/0` `NetworkSize` (4294967295) divided by the
child size 2^31 is 1.  The address `2^31` lies in the parent's range but in
no child's range, so the children do not tile the parent. -/
theorem C2_counterexample :
    parseNetwork ("0.0.0.0/0") = .ok ⟨0, 0⟩ ∧
    Split ⟨0, 0⟩ 1 = .ok [⟨0, 1⟩] ∧
    netAddr ⟨0, 0⟩ ≤ 2 ^ 31 ∧ 2 ^ 31 < netAddr ⟨0, 0⟩ + NetworkSize ⟨0, 0⟩ ∧
    (∀ c ∈ [(⟨0, 1⟩ : IPv4)], ¬(netAddr c ≤ 2 ^ 31 ∧ 2 ^ 31 < netAddr c + NetworkSize c)) := by
  decide

/-- C2, amended: for every parsed network with prefix length at least 1
(so that `NetworkSize` is exact, excluding the clamped `/0` case) and every
target `b` with `prefixLength ≤ b ≤ 32`, `Split` succeeds with
`parent.networkSize / childSize` children; child `i` is
`parentNetworkAddress + i * childSize` with prefix `b`; the children are in
ascending order with disjoint ranges and exactly tile the parent's range. -/
theorem C2_amended (s : List Char) (nw : IPv4) (hparse : ParseIPv4 s = .ok nw)
    (hp1 : 1 ≤ nw.prefixLen) (b : Nat) (hb1 : nw.prefixLen ≤ b) (hb2 : b ≤ 32) :
    ∃ children : List IPv4,
      Split nw (b : Int) = .ok children ∧
      children.length = NetworkSize nw / 2 ^ (32 - b) ∧
      (∀ c ∈ children, NetworkSize c = 2 ^ (32 - b)) ∧
      (∀ i, ∀ h : i < children.length,
        children.get ⟨i, h⟩ = ⟨netAddr nw + i * 2 ^ (32 - b), b⟩) ∧
      children.Pairwise (fun c d => netAddr c + NetworkSize c ≤ netAddr d) ∧
      (∀ a : Nat, (netAddr nw ≤ a ∧ a < netAddr nw + NetworkSize nw) ↔
        ∃ c ∈ children, netAddr c ≤ a ∧ a < netAddr c + NetworkSize c) := by
  obtain ⟨hip, hp32⟩ := ParseIPv4_wf hparse
  have hkpos : 0 < 2 ^ (32 - b) := Nat.pos_pow_of_pos _ (by omega)
  have hKpos : 0 < 2 ^ (32 - nw.prefixLen) := Nat.pos_pow_of_pos _ (by omega)
  have hKk : (2 : Nat) ^ (32 - nw.prefixLen) = 2 ^ (b - nw.prefixLen) * 2 ^ (32 - b) := by
    rw [← pow_add]
    congr 1
    omega
  have hNS : NetworkSize nw = 2 ^ (32 - nw.prefixLen) := NetworkSize_of_pos nw hp1 hp32
  have hN : netAddr nw = 2 ^ (32 - nw.prefixLen) * (nw.ip / 2 ^ (32 - nw.prefixLen)) :=
    netAddr_eq nw hip hp32
  have hNlt : netAddr nw < 2 ^ 32 := lt_of_le_of_lt (netAddr_le nw hip hp32) hip
  have h2p : (2 : Nat) ^ nw.prefixLen * 2 ^ (32 - nw.prefixLen) = 2 ^ 32 := by
    rw [← pow_add]
    congr 1
    omega
  have hdivlt : nw.ip / 2 ^ (32 - nw.prefixLen) < 2 ^ nw.prefixLen := by
    rw [Nat.div_lt_iff_lt_mul hKpos, h2p]
    exact hip
  have hNK : netAddr nw + 2 ^ (32 - nw.prefixLen) ≤ 2 ^ 32 := by
    have hstep : 2 ^ (32 - nw.prefixLen) * (nw.ip / 2 ^ (32 - nw.prefixLen))
        + 2 ^ (32 - nw.prefixLen)
        = 2 ^ (32 - nw.prefixLen) * (nw.ip / 2 ^ (32 - nw.prefixLen) + 1) := by
      ring
    rw [hN, hstep]
    calc 2 ^ (32 - nw.prefixLen) * (nw.ip / 2 ^ (32 - nw.prefixLen) + 1)
        ≤ 2 ^ (32 - nw.prefixLen) * 2 ^ nw.prefixLen :=
          Nat.mul_le_mul_left _ (by omega)
      _ = 2 ^ 32 := by rw [Nat.mul_comm, h2p]
  have hK31 : (2 : Nat) ^ (32 - nw.prefixLen) ≤ 2 ^ 31 :=
    Nat.pow_le_pow_right (by omega) (by omega)
  have h3132 : (2 : Nat) ^ 31 < 2 ^ 32 := by norm_num
  have hikK : ∀ i, i < 2 ^ (b - nw.prefixLen) →
      i * 2 ^ (32 - b) < 2 ^ (32 - nw.prefixLen) := by
    intro i hi
    calc i * 2 ^ (32 - b) < 2 ^ (b - nw.prefixLen) * 2 ^ (32 - b) :=
      (Nat.mul_lt_mul_right hkpos).mpr hi
      _ = 2 ^ (32 - nw.prefixLen) := hKk.symm
  have haddr : ∀ i, i < 2 ^ (b - nw.prefixLen) →
      netAddr nw + i * 2 ^ (32 - b) < 2 ^ 32 := by
    intro i hi
    have := hikK i hi
    omega
  have hsub : subnetSizeOf (b : Int) = ((2 ^ (32 - b) : Nat) : Int) := by
    unfold subnetSizeOf
    rw [if_pos (by exact_mod_cast hb2)]
    have ht : ((32 : Int) - (b : Int)).toNat = 32 - b := by omega
    rw [ht]
    push_cast
    rfl
  have hsznat : (subnetSizeOf (b : Int)).toNat = 2 ^ (32 - b) := by
    rw [hsub, Int.toNat_ofNat]
  have hszne : ¬(subnetSizeOf (b : Int) = 0) := by
    rw [hsub]
    exact_mod_cast hkpos.ne'
  have hguard : ¬((nw.prefixLen : Int) > (b : Int)) := by
    simp only [gt_iff_lt, Int.not_lt]
    exact_mod_cast hb1
  have hbnat : ((b : Int)).toNat = b := Int.toNat_ofNat b
  have hstart : IPv4ToInt (Network nw) = netAddr nw := by
    unfold IPv4ToInt Network
    simp only [parseDotted_intToIPv4 _ hNlt]
  have hcount : (((NetworkSize nw : Nat) : Int) / subnetSizeOf (b : Int)).toNat
      = 2 ^ (b - nw.prefixLen) := by
    rw [hNS, hKk, hsub, ← Int.ofNat_ediv, Int.toNat_ofNat, Nat.mul_div_cancel _ hkpos]
  have hloop : ∀ i, i < 2 ^ (b - nw.prefixLen) →
      ParseIPv4 (intToIPv4 ((netAddr nw + i * 2 ^ (32 - b) % 2 ^ 32) % 2 ^ 32)
        ++ '/' :: natDecChars b) = .ok ⟨netAddr nw + i * 2 ^ (32 - b), b⟩ := by
    intro i hi
    have h1 := hikK i hi
    have hm1 : i * 2 ^ (32 - b) % 2 ^ 32 = i * 2 ^ (32 - b) :=
      Nat.mod_eq_of_lt (by omega)
    have hm2 : (netAddr nw + i * 2 ^ (32 - b)) % 2 ^ 32 = netAddr nw + i * 2 ^ (32 - b) :=
      Nat.mod_eq_of_lt (haddr i hi)
    rw [hm1, hm2]
    exact ParseIPv4_render _ b (haddr i hi) hb2
  have hbuild : buildSubnets
      (fun i => ParseIPv4 (intToIPv4 ((netAddr nw + i * 2 ^ (32 - b) % 2 ^ 32) % 2 ^ 32)
        ++ '/' :: natDecChars b))
      (List.range (2 ^ (b - nw.prefixLen)))
      = .ok ((List.range (2 ^ (b - nw.prefixLen))).map
          (fun i => (⟨netAddr nw + i * 2 ^ (32 - b), b⟩ : IPv4))) :=
    buildSubnets_ok _ _ _ (fun i hi => hloop i (List.mem_range.mp hi))
  have hchild_net : ∀ i, i < 2 ^ (b - nw.prefixLen) →
      netAddr (⟨netAddr nw + i * 2 ^ (32 - b), b⟩ : IPv4)
        = netAddr nw + i * 2 ^ (32 - b) := by
    intro i hi
    have hdvd : 2 ^ (32 - b) ∣ netAddr nw + i * 2 ^ (32 - b) := by
      apply Nat.dvd_add
      · rw [hN]
        exact Dvd.dvd.mul_right (pow_dvd_pow 2 (by omega)) _
      · exact dvd_mul_left _ _
    rw [netAddr_eq _ (haddr i hi) hb2]
    exact Nat.mul_div_cancel' hdvd
  have hchild_size : ∀ i : Nat,
      NetworkSize (⟨netAddr nw + i * 2 ^ (32 - b), b⟩ : IPv4) = 2 ^ (32 - b) :=
    fun i => NetworkSize_of_pos _ (show 1 ≤ b by omega) (show b ≤ 32 from hb2)
  refine ⟨(List.range (2 ^ (b - nw.prefixLen))).map
      (fun i => (⟨netAddr nw + i * 2 ^ (32 - b), b⟩ : IPv4)), ?_, ?_, ?_, ?_, ?_, ?_⟩
  · simp only [Split]
    rw [if_neg hguard, if_neg hszne]
    simp only [hstart, hsznat, hbnat, hcount]
    rw [hbuild]
  · rw [List.length_map, List.length_range, hNS, hKk, Nat.mul_div_cancel _ hkpos]
  · intro c hc
    obtain ⟨i, _, rfl⟩ := List.mem_map.mp hc
    exact hchild_size i
  · intro i h
    simp only [List.get_eq_getElem, List.getElem_map, List.getElem_range]
  · rw [List.pairwise_iff_get]
    intro i j hij
    have hleni : (i : Nat) < 2 ^ (b - nw.prefixLen) := by
      have := i.isLt
      simpa [List.length_map, List.length_range] using this
    have hlenj : (j : Nat) < 2 ^ (b - nw.prefixLen) := by
      have := j.isLt
      simpa [List.length_map, List.length_range] using this
    simp only [List.get_eq_getElem, List.getElem_map, List.getElem_range]
    rw [hchild_net _ hleni, hchild_net _ hlenj, hchild_size]
    have hmul : ((i : Nat) + 1) * 2 ^ (32 - b) ≤ (j : Nat) * 2 ^ (32 - b) :=
      Nat.mul_le_mul_right _ (by exact_mod_cast hij)
    rw [Nat.add_mul, Nat.one_mul] at hmul
    omega
  · intro a
    rw [hNS, hKk,
      block_tiling (netAddr nw) (2 ^ (32 - b)) (2 ^ (b - nw.prefixLen)) hkpos a]
    constructor
    · rintro ⟨i, hi, h1, h2⟩
      refine ⟨⟨netAddr nw + i * 2 ^ (32 - b), b⟩,
        List.mem_map.mpr ⟨i, List.mem_range.mpr hi, rfl⟩, ?_, ?_⟩
      · rw [hchild_net i hi]
        exact h1
      · rw [hchild_net i hi, hchild_size]
        exact h2
    · rintro ⟨c, hc, h1, h2⟩
      obtain ⟨i, hi', rfl⟩ := List.mem_map.mp hc
      have hi := List.mem_range.mp hi'
      refine ⟨i, hi, ?_, ?_⟩
      · rw [hchild_net i hi] at h1
        exact h1
      · rw [hchild_net i hi, hchild_size] at h2
        exact h2

/-- C2, witness for the amended theorem: splitting the parsed `10.0.0.0/30`
into `/31` children. -/
theorem C2_witness :
    ∃ children : List IPv4,
      Split ⟨0x0A000000, 30⟩ ((31 : Nat) : Int) = .ok children ∧
      children.length = NetworkSize ⟨0x0A000000, 30⟩ / 2 ^ (32 - 31) ∧
      (∀ c ∈ children, NetworkSize c = 2 ^ (32 - 31)) ∧
      (∀ i, ∀ h : i < children.length,
        children.get ⟨i, h⟩ = ⟨netAddr ⟨0x0A000000, 30⟩ + i * 2 ^ (32 - 31), 31⟩) ∧
      children.Pairwise (fun c d => netAddr c + NetworkSize c ≤ netAddr d) ∧
      (∀ a : Nat, (netAddr ⟨0x0A000000, 30⟩ ≤ a ∧
          a < netAddr ⟨0x0A000000, 30⟩ + NetworkSize ⟨0x0A000000, 30⟩) ↔
        ∃ c ∈ children, netAddr c ≤ a ∧ a < netAddr c + NetworkSize c) :=
  C2_amended (("10.0.0.0/30").data) ⟨0x0A000000, 30⟩ (by decide) (by decide) 31
    (by decide) (by decide)

end IPTool
